import Mathlib

/-!
Shallow embedding of the Swatantra proof-of-work blockchain core
(packages core and crypto of the repository) and proofs about it.

Modelling conventions, fixed throughout the file:

* A 32-byte digest (crypto.Hash) is modelled as a natural number below
  2 ^ 256; the zero hash is 0.  Byte strings that are hashed are modelled
  as lists of field values (one list element per encoded field), and
  Keccak-256 is modelled by a concrete executable mixing function on such
  lists.  None of the claims proved here depends on the actual Keccak
  permutation, only on which data flows into a digest and on the equality
  or inequality of concrete digests, which the model decides by evaluation.
* gob encoding is deterministic and round-trips values, so a stored value
  is kept structurally (the structure itself instead of its byte string);
  equality of stored bytes coincides with structural equality.
* The four key namespaces of the shared key/value store (the 4-byte
  "head" marker, 32-byte block keys, 33-byte 'z'-undo keys and 37-byte
  'u'-UTXO keys) are pairwise disjoint byte-string families, so the store
  is modelled as a record with one association list per namespace.
* Go machine integers are modelled as Nat / Int with explicit wrapping
  (% 2 ^ 32, % 2 ^ 64) exactly where the Go code can overflow.
* A Go nil-pointer dereference is modelled by the distinguished outcome
  constructor Res.panicked.
-/

/-! ## Association-list maps (model of Go maps and of the key/value store) -/

/-- Lookup in an association list: the first binding of the key wins. -/
def alook {κ α : Type} [DecidableEq κ] (m : List (κ × α)) (k : κ) : Option α :=
  match m with
  | [] => none
  | (k₀, v₀) :: rest => if k = k₀ then some v₀ else alook rest k

/-- Insert (overwrite) a binding; implemented by shadowing, so the new
binding is found first by lookup. -/
def ains {κ α : Type} [DecidableEq κ] (m : List (κ × α)) (k : κ) (v : α) :
    List (κ × α) :=
  (k, v) :: m

/-- Delete every binding of a key. -/
def adel {κ α : Type} [DecidableEq κ] (m : List (κ × α)) (k : κ) : List (κ × α) :=
  m.filter (fun p => p.1 ≠ k)

/-! ## Hash and signature model -/

/-- Model of crypto.Keccak256.  A concrete executable mixing function from
field lists to digests below 2 ^ 256.  The claims proved in this file use
only that it is a fixed deterministic function of its input list; no claim
depends on the Keccak permutation itself. -/
def Keccak256 (data : List Nat) : Nat :=
  data.foldl (fun acc w => (acc * (2 ^ 128 + 51) + w + 1) % 2 ^ 256) 1

/-- Modelled from the spec: Ed25519 signature verification (the crypto
adapter's ed25519.Verify, whose byte-level mathematics is outside the
embedding).  An unforgeable deterministic scheme: a signature is valid iff
it equals a digest determined by the public key and the signed message.
A nil public key or nil signature never verifies, as in the adapter. -/
def sigDigest (pk : Nat) (msg : Nat) : Nat :=
  Keccak256 [pk, msg, 777]

/-- Model of crypto.PublicKey.Verify on optional (nil-able) key and
signature. -/
def sigVerify (pk : Option Nat) (msg : Nat) (sig : Option Nat) : Bool :=
  match pk, sig with
  | some p, some s => s = sigDigest p msg
  | _, _ => false

/-! ## Data model (src/core/types.go) -/

/-- TxInput: an input referencing a previous output, carrying an optional
(nil-able) public key and signature. -/
structure TxInput where
  prevTxHash : Nat
  prevOutIndex : Nat
  publicKey : Option Nat
  signature : Option Nat
deriving DecidableEq, Repr

/-- TxOutput: a value and a destination address (the 20-byte address is
modelled as a natural number). -/
structure TxOutput where
  value : Nat
  address : Nat
deriving DecidableEq, Repr

/-- Transaction: ordered inputs and outputs.  The source's cached hash
field is dropped; the cache is semantically transparent because the hash
is a pure function of the transaction. -/
structure Transaction where
  inputs : List TxInput
  outputs : List TxOutput
deriving DecidableEq, Repr

/-- Transaction.IsCoinbase: exactly one input whose previous-tx hash is the
zero hash. -/
def Transaction.IsCoinbase (tx : Transaction) : Bool :=
  match tx.inputs with
  | [i] => i.prevTxHash == 0
  | _ => false

/-- Transaction.EncodeForHashing after the source strips every input's
signature and public key: only (prevTxHash, prevOutIndex) of each input and
the outputs are encoded.  Field lists with length tags model the
deterministic gob byte string. -/
def Transaction.encodeForHashing (tx : Transaction) : List Nat :=
  tx.inputs.length ::
    (tx.inputs.flatMap (fun i => [i.prevTxHash, i.prevOutIndex]) ++
      tx.outputs.length ::
        tx.outputs.flatMap (fun o => [o.value, o.address]))

/-- Transaction.Hash: Keccak-256 of the signature-stripped encoding. -/
def Transaction.Hash (tx : Transaction) : Nat :=
  Keccak256 tx.encodeForHashing

/-- Zigzag embedding of a (64-bit) signed integer into the naturals, used
to place Int fields inside field lists. -/
def zig (x : Int) : Nat :=
  if 0 ≤ x then (2 * x).toNat else (-(2 * x) - 1).toNat

/-- Header: the block header.  CumulativeWork is a nil-able big integer
(Option Nat); it is not part of the hashing encoding. -/
structure Header where
  version : Nat
  prevHash : Nat
  height : Nat
  merkleRoot : Nat
  timestamp : Int
  difficulty : Nat
  nonce : Nat
  emaBlockTime : Int
  cumulativeWork : Option Nat
deriving DecidableEq, Repr

/-- Canonical encoding of every header field, cumulative work included
(Header.Encode).  A nil cumulative work encodes as the tag 0, a present
one as tag 1 followed by the value. -/
def Header.encode (h : Header) : List Nat :=
  [h.version, h.prevHash, h.height, h.merkleRoot, zig h.timestamp,
   h.difficulty, h.nonce, zig h.emaBlockTime] ++
    (match h.cumulativeWork with
     | none => [0]
     | some w => [1, w])

/-- Header.EncodeForHashing: the source encodes a copy of the header whose
CumulativeWork pointer is set to nil. -/
def Header.EncodeForHashing (h : Header) : List Nat :=
  Header.encode { h with cumulativeWork := none }

/-- Header.Hash: Keccak-256 of the hashing encoding. -/
def Header.Hash (h : Header) : Nat :=
  Keccak256 h.EncodeForHashing

/-- Block: header plus ordered transaction list (cached hash dropped, as
for transactions). -/
structure Block where
  header : Header
  transactions : List Transaction
deriving DecidableEq, Repr

/-- Block.Hash: the hash of the header. -/
def Block.Hash (b : Block) : Nat :=
  b.header.Hash

/-- SpentUTXO: one spent output remembered for undo. -/
structure SpentUTXO where
  txHash : Nat
  index : Nat
  output : TxOutput
deriving DecidableEq, Repr

/-- BlockUndo: the ordered spent outputs of one block. -/
structure BlockUndo where
  spentUTXOs : List SpentUTXO
deriving DecidableEq, Repr

/-! ## Merkle tree (src/core/merkle_tree.go) -/

/-- Data of a leaf node: NewMerkleNode(nil, nil, hash bytes) hashes the
32-byte transaction hash once more. -/
def leafData (txHash : Nat) : Nat :=
  Keccak256 [txHash]

/-- Data of an internal node: Keccak-256 of the two 32-byte children
concatenated. -/
def nodeData (l r : Nat) : Nat :=
  Keccak256 [l, r]

/-- One duplication step: if the node count is odd, duplicate the last
node (the source appends nodes[len(nodes)-1]). -/
def padOdd (nodes : List Nat) : List Nat :=
  if nodes.length % 2 = 1 then nodes ++ [nodes.getLast?.getD 0] else nodes

/-- Pair every two adjacent nodes into their parent (the source loop with
step 2; after padOdd the length is even, so the singleton fallback is
unreachable from the tree builder). -/
def combinePairs : List Nat → List Nat
  | a :: b :: rest => nodeData a b :: combinePairs rest
  | _ => []

/-- The level-by-level loop of NewMerkleTree.  The source loops while more
than one node remains; each pass at least halves the node count, so a fuel
of the initial node count always suffices.  The fuel-exhausted branch is a
totality artifact and is unreachable from NewMerkleTree. -/
def merkleLevels : Nat → List Nat → Nat
  | _, [x] => x
  | 0, _ => 0
  | fuel + 1, nodes => merkleLevels fuel (combinePairs (padOdd nodes))

/-- NewMerkleTree, reduced to the data of the root node (the only part of
the tree the core reads).  An empty transaction list yields a nil tree and
a nil error, modelled as Except.ok none. -/
def NewMerkleTree (transactions : List Transaction) : Except String (Option Nat) :=
  match transactions with
  | [] => Except.ok none
  | txs => Except.ok (some (merkleLevels txs.length (txs.map (fun tx => leafData tx.Hash))))

/-! ## Proof of work (src/core/pow.go) -/

/-- The PoW target 2 ^ (256 - difficulty).  The subtraction 256 - difficulty
happens on uint32 in Go and wraps for difficulty above 256. -/
def powTarget (difficulty : Nat) : Nat :=
  2 ^ ((256 + 2 ^ 32 - difficulty % 2 ^ 32) % 2 ^ 32)

/-- ProofOfWork.Validate: the header hash read as a big-endian integer must
be strictly below the target. -/
def powValidate (b : Block) : Bool :=
  b.Hash < powTarget b.header.difficulty

/-- ProofOfWork.Work: 2 ^ 256 / (target + 1). -/
def powWork (b : Block) : Nat :=
  2 ^ 256 / (powTarget b.header.difficulty + 1)

/-- ProofOfWork.Run: search nonces from 0 upward.  The source loops without
bound; the fuel argument is a totality artifact (none = the bounded search
did not finish). -/
def powRunFrom (fuel : Nat) (b : Block) (nonce : Nat) : Option (Nat × Nat) :=
  match fuel with
  | 0 => none
  | f + 1 =>
    let b' : Block := { b with header := { b.header with nonce := nonce } }
    if powValidate b' then some (nonce, b'.Hash) else powRunFrom f b (nonce + 1)

/-- ProofOfWork.Run starts its nonce search at 0. -/
def powRun (fuel : Nat) (b : Block) : Option (Nat × Nat) :=
  powRunFrom fuel b 0

/-! ## Difficulty / EMA controller (src/core/blockchain.go lines 76-126) -/

/-- TargetBlockTime = 15 * time.Second, in nanoseconds. -/
def TargetBlockTime : Int := 15000000000

/-- Wrap an integer into the int64 range, as Go addition, subtraction and
multiplication on int64 do. -/
def wrap64 (x : Int) : Int :=
  (x + 2 ^ 63) % 2 ^ 64 - 2 ^ 63

/-- CalculateNextDifficulty: the genesis parent keeps its difficulty and
EMA; otherwise the new EMA is the 95/1000-smoothed block time (computed in
wrapping int64 arithmetic with Go's truncated division) and the difficulty
moves by at most one, never below 1.  The difficulty increment is uint32
arithmetic and wraps at 2 ^ 32. -/
def CalculateNextDifficulty (parentHeader : Header) (newTimestamp : Int) : Nat × Int :=
  if parentHeader.height = 0 then
    (parentHeader.difficulty, parentHeader.emaBlockTime)
  else
    let actualBlockTime := wrap64 (newTimestamp - parentHeader.timestamp)
    let newEMABlockTime :=
      Int.tdiv
        (wrap64 (wrap64 (95 * actualBlockTime) + wrap64 (905 * parentHeader.emaBlockTime)))
        1000
    let lowerBound := TargetBlockTime - Int.tdiv TargetBlockTime 4
    let upperBound := TargetBlockTime + Int.tdiv TargetBlockTime 2
    let newDifficulty :=
      if newEMABlockTime < lowerBound then (parentHeader.difficulty + 1) % 2 ^ 32
      else if upperBound < newEMABlockTime then
        if 1 < parentHeader.difficulty then parentHeader.difficulty - 1 else 1
      else parentHeader.difficulty
    (newDifficulty, newEMABlockTime)

/-- The reference difficulty/EMA controller exactly as the specification
words it (spec 4.6): exact integer arithmetic with truncated division and
no machine-width wrapping.  Stated only to be compared with
CalculateNextDifficulty. -/
def specNextDifficulty (parent : Header) (t : Int) : Nat × Int :=
  if parent.height = 0 then
    (parent.difficulty, parent.emaBlockTime)
  else
    let newEMA := Int.tdiv (95 * (t - parent.timestamp) + 905 * parent.emaBlockTime) 1000
    let lower := TargetBlockTime - Int.tdiv TargetBlockTime 4
    let upper := TargetBlockTime + Int.tdiv TargetBlockTime 2
    let newDifficulty :=
      if newEMA < lower then parent.difficulty + 1
      else if upper < newEMA then
        if 1 < parent.difficulty then parent.difficulty - 1 else 1
      else parent.difficulty
    (newDifficulty, newEMA)

/-! ## The shared key/value store (storage adapter plus key schema) -/

/-- Res: the outcome of a chain operation.  ok models a nil Go error,
err a non-nil Go error, and panicked a Go runtime panic (nil-pointer
dereference). -/
inductive Res where
  | ok
  | err (msg : String)
  | panicked (msg : String)
deriving DecidableEq, Repr

/-- The shared key/value store.  The four key namespaces of the source
(the 4-byte head marker, raw 32-byte block keys, 33-byte z-keys for undo
records and 37-byte u-keys for UTXOs) are disjoint byte-string families,
so each namespace is one field.  headReadFails is modelled from the spec:
the storage adapter (package storage, which is not under src) can fail a
read with a StorageError distinct from absence; the flag injects such a
failure on the tip-marker key so that NewBlockchain can observe it. -/
structure Store where
  headTip : Option Nat
  headReadFails : Bool
  blocks : List (Nat × Block)
  utxos : List ((Nat × Nat) × TxOutput)
  undos : List (Nat × BlockUndo)
deriving DecidableEq, Repr

/-- Store.Get on the head marker: a read failure or absence is a non-nil
error; the code cannot tell the two apart. -/
def Store.getHead (s : Store) : Except String Nat :=
  if s.headReadFails then Except.error "storage error" else
  match s.headTip with
  | some h => Except.ok h
  | none => Except.error "not found"

/-- Store.Put on the head marker. -/
def Store.putHead (s : Store) (h : Nat) : Store :=
  { s with headTip := some h }

/-- BlockStore.Get: lookup by block hash; a missing block is the not-found
error. -/
def Store.getBlock (s : Store) (h : Nat) : Option Block :=
  alook s.blocks h

/-- BlockStore.Put: store the block under its header hash. -/
def Store.putBlock (s : Store) (b : Block) : Store :=
  { s with blocks := ains s.blocks b.Hash b }

/-- Store.Get on a u-key (Blockchain.GetUTXO without the impossible decode
failure). -/
def Store.getUTXO (s : Store) (txh idx : Nat) : Option TxOutput :=
  alook s.utxos (txh, idx)

/-- Store.Put on a u-key. -/
def Store.putUTXO (s : Store) (txh idx : Nat) (o : TxOutput) : Store :=
  { s with utxos := ains s.utxos (txh, idx) o }

/-- Store.Delete on a u-key. -/
def Store.delUTXO (s : Store) (txh idx : Nat) : Store :=
  { s with utxos := adel s.utxos (txh, idx) }

/-- Store.Get on a z-key. -/
def Store.getUndo (s : Store) (blockHash : Nat) : Option BlockUndo :=
  alook s.undos blockHash

/-- Store.Put on a z-key. -/
def Store.putUndo (s : Store) (blockHash : Nat) (u : BlockUndo) : Store :=
  { s with undos := ains s.undos blockHash u }

/-- Store.Delete on a z-key. -/
def Store.delUndo (s : Store) (blockHash : Nat) : Store :=
  { s with undos := adel s.undos blockHash }

/-- Blockchain: the chain manager state — the shared store, the in-memory
header index and the active head. -/
structure Blockchain where
  store : Store
  headers : List (Nat × Header)
  head : Header
deriving DecidableEq, Repr

/-! ## UTXO engine: updateUTXOSet and rollbackUTXOSet -/

/-- The inner input loop of updateUTXOSet: look the spent UTXO up, push it
onto the undo list, delete its key.  A missing UTXO aborts with an error,
leaving the deletions made so far in place. -/
def applyTxInputs (st : Store) (undo : List SpentUTXO) :
    List TxInput → Store × List SpentUTXO × Option String
  | [] => (st, undo, none)
  | i :: rest =>
    match st.getUTXO i.prevTxHash i.prevOutIndex with
    | none => (st, undo, some "could not find UTXO for input")
    | some spentOutput =>
      applyTxInputs (st.delUTXO i.prevTxHash i.prevOutIndex)
        (undo ++ [{ txHash := i.prevTxHash, index := i.prevOutIndex, output := spentOutput }])
        rest

/-- The outer input loop of updateUTXOSet: coinbase transactions are
skipped. -/
def applyTxsInputs (st : Store) (undo : List SpentUTXO) :
    List Transaction → Store × List SpentUTXO × Option String
  | [] => (st, undo, none)
  | tx :: rest =>
    if tx.IsCoinbase then applyTxsInputs st undo rest
    else
      match applyTxInputs st undo tx.inputs with
      | (st', undo', none) => applyTxsInputs st' undo' rest
      | (st', undo', some e) => (st', undo', some e)

/-- The output loop of updateUTXOSet for one transaction: write key
(txHash, i) for output index i. -/
def putTxOutputs (st : Store) (txh : Nat) (i : Nat) : List TxOutput → Store
  | [] => st
  | o :: rest => putTxOutputs (st.putUTXO txh i o) txh (i + 1) rest

/-- The output loop of updateUTXOSet over every transaction (coinbase
included). -/
def putTxsOutputs (st : Store) : List Transaction → Store
  | [] => st
  | tx :: rest => putTxsOutputs (putTxOutputs st tx.Hash 0 tx.outputs) rest

/-- updateUTXOSet: delete every non-coinbase input (collecting undo data),
write every output, persist the undo record under the block hash.  On
error the partial deletions remain, as the source mutates the store in
place. -/
def updateUTXOSet (st : Store) (b : Block) : Store × Option String :=
  match applyTxsInputs st [] b.transactions with
  | (st1, _, some e) => (st1, some e)
  | (st1, undo, none) =>
    let st2 := putTxsOutputs st1 b.transactions
    (st2.putUndo b.Hash { spentUTXOs := undo }, none)

/-- The deletion loop of rollbackUTXOSet for one transaction. -/
def delTxOutputs (st : Store) (txh : Nat) (i : Nat) : List TxOutput → Store
  | [] => st
  | _ :: rest => delTxOutputs (st.delUTXO txh i) txh (i + 1) rest

/-- The deletion loop of rollbackUTXOSet over every transaction. -/
def delTxsOutputs (st : Store) : List Transaction → Store
  | [] => st
  | tx :: rest => delTxsOutputs (delTxOutputs st tx.Hash 0 tx.outputs) rest

/-- The restore loop of rollbackUTXOSet: re-create every spent UTXO with
its remembered output. -/
def restoreSpent (st : Store) : List SpentUTXO → Store
  | [] => st
  | e :: rest => restoreSpent (st.putUTXO e.txHash e.index e.output) rest

/-- rollbackUTXOSet: load the undo record (error if missing), delete every
output the block created, restore every spent UTXO, delete the undo
record. -/
def rollbackUTXOSet (st : Store) (b : Block) : Store × Option String :=
  match st.getUndo b.Hash with
  | none => (st, some "could not find undo data for block")
  | some u =>
    let st1 := delTxsOutputs st b.transactions
    let st2 := restoreSpent st1 u.spentUTXOs
    (st2.delUndo b.Hash, none)

/-! ## Transaction and block validation -/

/-- Transaction.Verify: a coinbase needs no verification; otherwise every
input signature must verify the transaction hash under the input key. -/
def Transaction.Verify (tx : Transaction) : Bool :=
  if tx.IsCoinbase then true
  else tx.inputs.all (fun i => sigVerify i.publicKey tx.Hash i.signature)

/-- The input-existence loop of ValidateTransaction (HasUTXO per input). -/
def hasInputs (st : Store) : List TxInput → Option String
  | [] => none
  | i :: rest =>
    if (st.getUTXO i.prevTxHash i.prevOutIndex).isSome then hasInputs st rest
    else some "input not found in UTXO set"

/-- ValidateTransaction: a coinbase is accepted unconditionally; otherwise
every input must exist in the UTXO set and the signatures must verify. -/
def ValidateTransaction (c : Blockchain) (tx : Transaction) : Bool × Option String :=
  if tx.IsCoinbase then (true, none)
  else
    match hasInputs c.store tx.inputs with
    | some e => (false, some e)
    | none => (tx.Verify, none)

/-- The per-transaction loop of ValidateBlock: coinbase transactions are
skipped; a failing or invalid transaction aborts with the first error. -/
def validateBlockTxs (c : Blockchain) : List Transaction → Option String
  | [] => none
  | tx :: rest =>
    if tx.IsCoinbase then validateBlockTxs c rest
    else
      match ValidateTransaction c tx with
      | (_, some e) => some e
      | (valid, none) =>
        if valid then validateBlockTxs c rest else some "invalid transaction in block"

/-- The height, difficulty and EMA checks of ValidateBlock against the
parent header.  The height increment is uint32 arithmetic. -/
def heightDiffChecks (prevHeader : Header) (b : Block) : Option String :=
  if b.header.height ≠ (prevHeader.height + 1) % 2 ^ 32 then some "invalid height"
  else
    let expected := CalculateNextDifficulty prevHeader b.header.timestamp
    if b.header.difficulty ≠ expected.1 then some "invalid difficulty"
    else if b.header.emaBlockTime ≠ expected.2 then some "invalid EMABlockTime"
    else none

/-- The parent-resolution phase of ValidateBlock (lines 392-423): for a
non-genesis block the parent header is looked up in the in-memory index,
falling back to the block store and adopting the found header into the
index; then height, difficulty and EMA are checked.  A genesis block only
needs a zero previous hash. -/
def validateParentChecks (c : Blockchain) (b : Block) : Blockchain × Option String :=
  if b.header.height ≠ 0 then
    match alook c.headers b.header.prevHash with
    | some prevHeader => (c, heightDiffChecks prevHeader b)
    | none =>
      match c.store.getBlock b.header.prevHash with
      | none => (c, some "parent block not found for validation")
      | some pb =>
        ({ c with headers := ains c.headers b.header.prevHash pb.header },
         heightDiffChecks pb.header b)
  else
    if b.header.prevHash ≠ 0 then (c, some "genesis block must have zero prevhash")
    else (c, none)

/-- ValidateBlock: parent/height/difficulty checks, proof of work, Merkle
root (a nil tree for an empty transaction list makes the source
dereference a nil pointer), then the per-transaction loop.  The returned
Blockchain carries the possible parent adoption into the header index. -/
def ValidateBlock (c : Blockchain) (b : Block) : Blockchain × Res :=
  match validateParentChecks c b with
  | (c1, some e) => (c1, Res.err e)
  | (c1, none) =>
    if ¬ powValidate b then (c1, Res.err "invalid proof of work")
    else
      match NewMerkleTree b.transactions with
      | Except.error e => (c1, Res.err e)
      | Except.ok none => (c1, Res.panicked "nil merkle tree root dereference")
      | Except.ok (some root) =>
        if root ≠ b.header.merkleRoot then (c1, Res.err "invalid merkle root")
        else
          match validateBlockTxs c1 b.transactions with
          | some e => (c1, Res.err e)
          | none => (c1, Res.ok)

/-! ## Reorganization -/

/-- The walking loop of getChainPath.  The source loops while the current
hash differs from the end hash and is not zero; a cycle through the header
index would loop forever, which the fuel bound (one more than the index
size, enough for any acyclic walk) turns into an error. -/
def getChainPathLoop (headers : List (Nat × Header)) :
    Nat → Nat → Nat → List Nat → Except String (List Nat)
  | 0, _, _, _ => Except.error "chain path does not terminate"
  | fuel + 1, currentHash, endHash, path =>
    if currentHash = endHash ∨ currentHash = 0 then Except.ok path
    else
      match alook headers currentHash with
      | none => Except.error "header not found for hash"
      | some header =>
        if header.height = 0 then Except.ok (path ++ [currentHash])
        else getChainPathLoop headers fuel header.prevHash endHash (path ++ [currentHash])

/-- getChainPath: the hashes from startHash toward endHash (excluded), in
start-toward-end order. -/
def getChainPath (headers : List (Nat × Header)) (startHash endHash : Nat) :
    Except String (List Nat) :=
  if startHash = 0 then Except.ok []
  else getChainPathLoop headers (headers.length + 1) startHash endHash []

/-- findCommonAncestor: walk both tips to genesis and return the first
hash of the second path that occurs in the first. -/
def findCommonAncestor (headers : List (Nat × Header)) (hashA hashB : Nat) :
    Except String Nat :=
  if hashA = 0 ∨ hashB = 0 then Except.ok 0
  else
    match getChainPath headers hashA 0 with
    | Except.error e => Except.error e
    | Except.ok pathA =>
      match getChainPath headers hashB 0 with
      | Except.error e => Except.error e
      | Except.ok pathB =>
        match pathB.find? (fun h => pathA.contains h) with
        | some h => Except.ok h
        | none => Except.error "no common ancestor found"

/-- The rollback loop of reorganizeChain: load each block and roll its
UTXO effects back; an error leaves the store mutations made so far. -/
def rollbackBlocks (st : Store) : List Nat → Store × Option String
  | [] => (st, none)
  | h :: rest =>
    match st.getBlock h with
    | none => (st, some "block not found")
    | some blk =>
      match rollbackUTXOSet st blk with
      | (st', some e) => (st', some e)
      | (st', none) => rollbackBlocks st' rest

/-- The apply loop of reorganizeChain (the caller passes the path already
reversed into oldest-first order). -/
def applyBlocks (st : Store) : List Nat → Store × Option String
  | [] => (st, none)
  | h :: rest =>
    match st.getBlock h with
    | none => (st, some "block not found")
    | some blk =>
      match updateUTXOSet st blk with
      | (st', some e) => (st', some e)
      | (st', none) => applyBlocks st' rest

/-- reorganizeChain: find the common ancestor, roll back the old branch,
apply the new branch oldest-first, then move the head and the tip
marker. -/
def reorganizeChain (c : Blockchain) (newHeadBlock : Block) : Blockchain × Res :=
  let newHeadHash := newHeadBlock.Hash
  let oldHeadHash := c.head.Hash
  match findCommonAncestor c.headers oldHeadHash newHeadHash with
  | Except.error _ => (c, Res.err "could not find common ancestor")
  | Except.ok ancestorHash =>
    match getChainPath c.headers oldHeadHash ancestorHash with
    | Except.error _ => (c, Res.err "could not get path to rollback")
    | Except.ok blocksToRollback =>
      match getChainPath c.headers newHeadHash ancestorHash with
      | Except.error _ => (c, Res.err "could not get path to apply")
      | Except.ok blocksToApply =>
        match rollbackBlocks c.store blocksToRollback with
        | (st, some e) => ({ c with store := st }, Res.err e)
        | (st, none) =>
          match applyBlocks st blocksToApply.reverse with
          | (st', some e) => ({ c with store := st' }, Res.err e)
          | (st', none) =>
            ({ c with store := st'.putHead newHeadHash,
                      head := newHeadBlock.header }, Res.ok)

/-! ## AddBlock and NewBlockchain -/

/-- AddBlock: duplicate blocks are a no-op success; otherwise validate,
compute the cumulative work from the parent (a nil parent or nil work is a
Go nil-pointer panic), persist block and header, then either extend the
tip, reorganize to a strictly heavier fork, or keep the block aside. -/
def AddBlock (c : Blockchain) (b : Block) : Blockchain × Res :=
  let blockHash := b.Hash
  if (alook c.headers blockHash).isSome then (c, Res.ok)
  else
    match ValidateBlock c b with
    | (c1, Res.err e) => (c1, Res.err e)
    | (c1, Res.panicked m) => (c1, Res.panicked m)
    | (c1, Res.ok) =>
      match alook c1.headers b.header.prevHash with
      | none => (c1, Res.panicked "nil pointer dereference on parent header")
      | some prevHeader =>
        match prevHeader.cumulativeWork with
        | none => (c1, Res.panicked "nil pointer dereference on parent cumulative work")
        | some pw =>
          let work := powWork b
          let b' : Block := { b with header := { b.header with cumulativeWork := some (pw + work) } }
          let c2 : Blockchain := { c1 with store := c1.store.putBlock b',
                                           headers := ains c1.headers blockHash b'.header }
          if b.header.prevHash = c2.head.Hash then
            match updateUTXOSet c2.store b' with
            | (st3, some e) => ({ c2 with store := st3 }, Res.err e)
            | (st3, none) =>
              ({ c2 with store := st3.putHead blockHash, head := b'.header }, Res.ok)
          else
            match c2.head.cumulativeWork with
            | none => (c2, Res.panicked "nil pointer dereference on head cumulative work")
            | some hw =>
              if hw < pw + work then reorganizeChain c2 b'
              else (c2, Res.ok)

/-- The genesis coinbase transaction CreateGenesisBlock builds: a single
zero-previous-hash input with nil key and signature, one output. -/
def genesisCoinbaseTx (coinbaseAddr : Nat) (initialSupply : Nat) : Transaction :=
  { inputs := [{ prevTxHash := 0, prevOutIndex := 0, publicKey := none, signature := none }],
    outputs := [{ value := initialSupply, address := coinbaseAddr }] }

/-- The genesis block before mining: the fixed header (timestamp
2024-01-01T00:00:00Z in Unix seconds, EMA block time 15 seconds in
nanoseconds, cumulative work 0) with the Merkle root of the single
coinbase and nonce 0. -/
def genesisUnmined (coinbaseAddr : Nat) (initialSupply : Nat)
    (initialDifficulty : Nat) : Block :=
  let coinbaseTx := genesisCoinbaseTx coinbaseAddr initialSupply
  let root :=
    match NewMerkleTree [coinbaseTx] with
    | Except.ok (some r) => r
    | _ => 0
  { header := { version := 1, prevHash := 0, height := 0, merkleRoot := root,
                timestamp := 1704067200, difficulty := initialDifficulty, nonce := 0,
                emaBlockTime := 15000000000, cumulativeWork := some 0 },
    transactions := [coinbaseTx] }

/-- CreateGenesisBlock: the fixed genesis block with a mined nonce.  The
fuel bounds the unbounded source search. -/
def CreateGenesisBlock (fuel : Nat) (coinbaseAddr : Nat) (initialSupply : Nat)
    (initialDifficulty : Nat) : Option Block :=
  match powRun fuel (genesisUnmined coinbaseAddr initialSupply initialDifficulty) with
  | none => none
  | some (nonce, _) =>
    some { genesisUnmined coinbaseAddr initialSupply initialDifficulty with
           header := { (genesisUnmined coinbaseAddr initialSupply initialDifficulty).header with
                       nonce := nonce } }

/-- NewBlockchain: any error reading the tip marker (absence or a storage
failure alike) triggers creation and persistence of a genesis state with
coinbase address 0 and supply 1000; a readable marker loads the tip header
from the block store and leaves the in-memory header index empty (the
source marks repopulation as a TODO). -/
def NewBlockchain (s : Store) (initialDifficulty : Nat) (fuel : Nat) :
    Except String Blockchain :=
  match s.getHead with
  | Except.error _ =>
    match CreateGenesisBlock fuel 0 1000 initialDifficulty with
    | none => Except.error "genesis mining did not finish within the fuel bound"
    | some genesis =>
      let blockHash := genesis.Hash
      let st1 := s.putBlock genesis
      match updateUTXOSet st1 genesis with
      | (_, some e) => Except.error e
      | (st2, none) =>
        Except.ok { store := st2.putHead blockHash,
                    headers := [(blockHash, genesis.header)],
                    head := genesis.header }
  | Except.ok headHash =>
    match s.getBlock headHash with
    | none => Except.error "block not found"
    | some b => Except.ok { store := s, headers := [], head := b.header }

/-! ## Concrete states used by the concrete theorems below -/

/-- The empty store: no tip marker, no data, reads succeed. -/
def emptyStore : Store :=
  { headTip := none, headReadFails := false, blocks := [], utxos := [], undos := [] }

/-- A store whose tip marker exists but whose read of it fails with a
storage error (adapter-level failure, spec-modelled). -/
def failingStore : Store :=
  { headTip := some 999, headReadFails := true, blocks := [], utxos := [], undos := [] }

/-- An all-zero header, only used as the unreachable fallback when
destructuring an Except that is known to be ok. -/
def fallbackHeader : Header :=
  { version := 0, prevHash := 0, height := 0, merkleRoot := 0, timestamp := 0,
    difficulty := 0, nonce := 0, emaBlockTime := 0, cumulativeWork := none }

/-- The unreachable fallback chain for the same purpose. -/
def fallbackChain : Blockchain :=
  { store := emptyStore, headers := [], head := fallbackHeader }

/-- The fresh chain NewBlockchain builds on an empty store with initial
difficulty 0 (difficulty 0 makes every nonce valid, so fuel 1 mines). -/
def genesisChain : Blockchain :=
  match NewBlockchain emptyStore 0 1 with
  | Except.ok c => c
  | Except.error _ => fallbackChain

/-- The genesis coinbase transaction CreateGenesisBlock builds for
coinbase address 0 and initial supply 1000. -/
def genesisCoinbase : Transaction :=
  { inputs := [{ prevTxHash := 0, prevOutIndex := 0, publicKey := none, signature := none }],
    outputs := [{ value := 1000, address := 0 }] }

/-- The genesis block itself, at initial difficulty 0. -/
def genesisBlock : Block :=
  match CreateGenesisBlock 1 0 1000 0 with
  | some g => g
  | none => { header := fallbackHeader, transactions := [] }

/-- The Merkle root of a transaction list (0 for the empty list, which
never occurs where this helper is used). -/
def merkleRootOf (txs : List Transaction) : Nat :=
  match NewMerkleTree txs with
  | Except.ok (some r) => r
  | _ => 0

/-- The double-spend transaction before signing: two identical inputs
both spending output 0 of the genesis coinbase. -/
def dsStripped : Transaction :=
  { inputs := [{ prevTxHash := genesisCoinbase.Hash, prevOutIndex := 0,
                 publicKey := some 42, signature := none },
               { prevTxHash := genesisCoinbase.Hash, prevOutIndex := 0,
                 publicKey := some 42, signature := none }],
    outputs := [{ value := 1999, address := 5 }] }

/-- The double-spend transaction with valid signatures (the transaction
hash ignores signatures, so signing does not change the hash). -/
def dsTx : Transaction :=
  { inputs := [{ prevTxHash := genesisCoinbase.Hash, prevOutIndex := 0,
                 publicKey := some 42, signature := some (sigDigest 42 dsStripped.Hash) },
               { prevTxHash := genesisCoinbase.Hash, prevOutIndex := 0,
                 publicKey := some 42, signature := some (sigDigest 42 dsStripped.Hash) }],
    outputs := [{ value := 1999, address := 5 }] }

/-- A block over the genesis chain whose single transaction spends the
same UTXO twice.  It passes ValidateBlock (the existence check is pure and
sees the UTXO both times), but applying it fails halfway through. -/
def dsBlock : Block :=
  { header := { version := 1, prevHash := genesisChain.head.Hash, height := 1,
                merkleRoot := merkleRootOf [dsTx], timestamp := 1704067215,
                difficulty := 0, nonce := 0, emaBlockTime := 15000000000,
                cumulativeWork := none },
    transactions := [dsTx] }

/-- A block over the genesis chain that repeats the genesis coinbase
transaction verbatim: its created output key collides with the still
unspent genesis coinbase output. -/
def dupCbBlock : Block :=
  { header := { version := 1, prevHash := genesisChain.head.Hash, height := 1,
                merkleRoot := merkleRootOf [genesisCoinbase], timestamp := 1704067215,
                difficulty := 0, nonce := 0, emaBlockTime := 15000000000,
                cumulativeWork := none },
    transactions := [genesisCoinbase] }

/-- A miner-style coinbase paying 50 to address 9. -/
def b1Coinbase : Transaction :=
  { inputs := [{ prevTxHash := 0, prevOutIndex := 0, publicKey := none, signature := none }],
    outputs := [{ value := 50, address := 9 }] }

/-- A valid coinbase-only extension block at height 1 over genesis. -/
def b1 : Block :=
  { header := { version := 1, prevHash := genesisChain.head.Hash, height := 1,
                merkleRoot := merkleRootOf [b1Coinbase], timestamp := 1704067215,
                difficulty := 0, nonce := 0, emaBlockTime := 15000000000,
                cumulativeWork := none },
    transactions := [b1Coinbase] }

/-- The chain after accepting b1: head at height 1. -/
def chain2 : Blockchain :=
  (AddBlock genesisChain b1).1

/-- Another coinbase, distinct from b1Coinbase. -/
def b1fCoinbase : Transaction :=
  { inputs := [{ prevTxHash := 0, prevOutIndex := 0, publicKey := none, signature := none }],
    outputs := [{ value := 50, address := 11 }] }

/-- A fork block at height 1 over genesis, distinct from b1; at difficulty
0 every block carries work 0, so its cumulative work ties the tip. -/
def b1f : Block :=
  { header := { version := 1, prevHash := genesisChain.head.Hash, height := 1,
                merkleRoot := merkleRootOf [b1fCoinbase], timestamp := 1704067230,
                difficulty := 0, nonce := 0, emaBlockTime := 15000000000,
                cumulativeWork := none },
    transactions := [b1fCoinbase] }

/-- b1 with a wrong difficulty: ValidateBlock rejects it. -/
def badDiffBlock : Block :=
  { header := { version := 1, prevHash := genesisChain.head.Hash, height := 1,
                merkleRoot := merkleRootOf [b1Coinbase], timestamp := 1704067215,
                difficulty := 3, nonce := 0, emaBlockTime := 15000000000,
                cumulativeWork := none },
    transactions := [b1Coinbase] }

/-- A transaction spending the genesis coinbase output once, with a valid
signature, creating one fresh output. -/
def spendStripped : Transaction :=
  { inputs := [{ prevTxHash := genesisCoinbase.Hash, prevOutIndex := 0,
                 publicKey := some 42, signature := none }],
    outputs := [{ value := 999, address := 7 }] }

/-- The signed form of spendStripped. -/
def spendTx : Transaction :=
  { inputs := [{ prevTxHash := genesisCoinbase.Hash, prevOutIndex := 0,
                 publicKey := some 42, signature := some (sigDigest 42 spendStripped.Hash) }],
    outputs := [{ value := 999, address := 7 }] }

/-- A block over genesis carrying a coinbase and the single-spend
transaction; its apply-then-rollback round-trips. -/
def spendBlock : Block :=
  { header := { version := 1, prevHash := genesisChain.head.Hash, height := 1,
                merkleRoot := merkleRootOf [b1Coinbase, spendTx], timestamp := 1704067215,
                difficulty := 0, nonce := 0, emaBlockTime := 15000000000,
                cumulativeWork := none },
    transactions := [b1Coinbase, spendTx] }

/-- The genesis chain with its in-memory header index emptied, as after a
process restart (the source leaves repopulation as a TODO). -/
def strippedChain : Blockchain :=
  { genesisChain with headers := [] }

/-- A block with an empty transaction list and difficulty 0 at height 0:
every ValidateBlock check before the Merkle comparison passes. -/
def emptyTxBlock : Block :=
  { header := { version := 1, prevHash := 0, height := 0, merkleRoot := 0, timestamp := 0,
                difficulty := 0, nonce := 0, emaBlockTime := 0, cumulativeWork := none },
    transactions := [] }

/-- A parent header whose timestamp makes the EMA computation overflow
int64: the actual block time 2 ^ 63 wraps to a negative number. -/
def overflowParent : Header :=
  { version := 1, prevHash := 0, height := 1, merkleRoot := 0, timestamp := -(2 ^ 62),
    difficulty := 5, nonce := 0, emaBlockTime := 0, cumulativeWork := none }

/-- A realistic parent header for the in-range difficulty witness. -/
def calmParent : Header :=
  { version := 1, prevHash := 0, height := 3, merkleRoot := 0, timestamp := 1704067200,
    difficulty := 10, nonce := 0, emaBlockTime := 15000000000, cumulativeWork := some 0 }

/-- A coinbase minting an enormous value out of nothing. -/
def hugeCoinbase : Transaction :=
  { inputs := [{ prevTxHash := 0, prevOutIndex := 0, publicKey := none, signature := none }],
    outputs := [{ value := 10 ^ 18, address := 3 }] }

/-- Header used by the cumulative-work-independence witness, with no
cumulative work. -/
def cwHeaderA : Header :=
  { version := 1, prevHash := 77, height := 4, merkleRoot := 88, timestamp := 1704067215,
    difficulty := 12, nonce := 3456, emaBlockTime := 15000000000, cumulativeWork := none }

/-- The same header carrying a large cumulative work. -/
def cwHeaderB : Header :=
  { version := 1, prevHash := 77, height := 4, merkleRoot := 88, timestamp := 1704067215,
    difficulty := 12, nonce := 3456, emaBlockTime := 15000000000,
    cumulativeWork := some (2 ^ 300 + 17) }

/-! ## Key sets of a block and frame predicates (statement helpers) -/

/-- The UTXO keys the input phase of updateUTXOSet deletes, in processing
order: every input of every non-coinbase transaction. -/
def txsSpentKeys : List Transaction → List (Nat × Nat)
  | [] => []
  | tx :: rest =>
    (if tx.IsCoinbase then []
     else tx.inputs.map (fun i => (i.prevTxHash, i.prevOutIndex))) ++ txsSpentKeys rest

/-- The UTXO keys a block spends. -/
def blockSpentKeys (b : Block) : List (Nat × Nat) :=
  txsSpentKeys b.transactions

/-- The UTXO keys the output phase of updateUTXOSet writes (and the
deletion phase of rollbackUTXOSet deletes): key (tx hash, i) for output
index i of every transaction. -/
def txsCreatedKeys : List Transaction → List (Nat × Nat)
  | [] => []
  | tx :: rest =>
    (List.range tx.outputs.length).map (fun i => (tx.Hash, i)) ++ txsCreatedKeys rest

/-- The UTXO keys a block creates. -/
def blockCreatedKeys (b : Block) : List (Nat × Nat) :=
  txsCreatedKeys b.transactions

/-- The cumulative work a header carries (0 for a nil pointer), the
quantity the fork choice compares. -/
def headerWork (h : Header) : Nat :=
  h.cumulativeWork.getD 0

/-- Two stores that agree outside the UTXO namespace. -/
def utxoOnly (st st' : Store) : Prop :=
  st'.headTip = st.headTip ∧ st'.headReadFails = st.headReadFails ∧
  st'.blocks = st.blocks ∧ st'.undos = st.undos

/-- What a successful input phase did: it produced the undo entries whose
keys are exactly the given key list in order, each remembering the output
the pre-state held, it deleted exactly those keys, the keys are pairwise
distinct, and it touched nothing outside the UTXO namespace. -/
def ApplySpec (st st' : Store) (undoNew : List SpentUTXO) (keys : List (Nat × Nat)) : Prop :=
  undoNew.map (fun e => (e.txHash, e.index)) = keys ∧
  keys.Nodup ∧
  (∀ e ∈ undoNew, st.getUTXO e.txHash e.index = some e.output) ∧
  (∀ k : Nat × Nat, st'.getUTXO k.1 k.2 = if k ∈ keys then none else st.getUTXO k.1 k.2) ∧
  utxoOnly st st'

/-! ## Map lemmas -/

theorem alook_ains {κ α : Type} [DecidableEq κ] (m : List (κ × α)) (k k' : κ) (v : α) :
    alook (ains m k v) k' = if k' = k then some v else alook m k' := by
  simp [ains, alook]

theorem alook_adel {κ α : Type} [DecidableEq κ] (m : List (κ × α)) (k k' : κ) :
    alook (adel m k) k' = if k' = k then none else alook m k' := by
  induction m with
  | nil => simp [adel, alook]
  | cons p rest ih =>
    obtain ⟨k₀, v₀⟩ := p
    by_cases hpk : k₀ = k
    · subst hpk
      have h1 : adel ((k₀, v₀) :: rest) k₀ = adel rest k₀ := by simp [adel]
      rw [h1, ih]
      by_cases hk' : k' = k₀ <;> simp [alook, hk']
    · have h1 : adel ((k₀, v₀) :: rest) k = (k₀, v₀) :: adel rest k := by
        simp [adel, hpk]
      rw [h1]
      by_cases hk'p : k' = k₀
      · have hk'k : ¬ k' = k := fun h => hpk (hk'p.symm.trans h)
        simp [alook, hk'p, hk'k, hpk]
      · simp [alook, hk'p, ih]

/-- A lookup hit is a member of the association list. -/
theorem alook_mem {κ α : Type} [DecidableEq κ] (m : List (κ × α)) (k : κ) (v : α)
    (h : alook m k = some v) : (k, v) ∈ m := by
  induction m with
  | nil => simp [alook] at h
  | cons p rest ih =>
    obtain ⟨k₀, v₀⟩ := p
    by_cases hk : k = k₀
    · subst hk
      simp [alook] at h
      simp [h]
    · simp [alook, hk] at h
      exact List.mem_cons_of_mem _ (ih h)

/-! ## C4: the difficulty / EMA controller -/

/-- Wrapping is the identity on the int64 range. -/
theorem wrap64_id (x : Int) (h1 : -(2 ^ 63) ≤ x) (h2 : x < 2 ^ 63) : wrap64 x = x := by
  unfold wrap64
  omega

/-- C4 (corrected).  CalculateNextDifficulty agrees with the reference
controller of the specification whenever the EMA computation stays inside
the int64 range and the difficulty increment stays inside uint32; the
source computes in wrapping machine arithmetic, the reference in exact
integer arithmetic, so outside that range they diverge (see the
counterexample). -/
theorem C4_controller_agreement (parent : Header) (t : Int)
    (h1 : -(2 ^ 63) ≤ t - parent.timestamp) (h2 : t - parent.timestamp < 2 ^ 63)
    (h3 : -(2 ^ 63) ≤ 95 * (t - parent.timestamp)) (h4 : 95 * (t - parent.timestamp) < 2 ^ 63)
    (h5 : -(2 ^ 63) ≤ 905 * parent.emaBlockTime) (h6 : 905 * parent.emaBlockTime < 2 ^ 63)
    (h7 : -(2 ^ 63) ≤ 95 * (t - parent.timestamp) + 905 * parent.emaBlockTime)
    (h8 : 95 * (t - parent.timestamp) + 905 * parent.emaBlockTime < 2 ^ 63)
    (h9 : parent.difficulty + 1 < 2 ^ 32) :
    CalculateNextDifficulty parent t = specNextDifficulty parent t := by
  by_cases hh : parent.height = 0
  · simp [CalculateNextDifficulty, specNextDifficulty, hh]
  · have w1 : wrap64 (t - parent.timestamp) = t - parent.timestamp := wrap64_id _ h1 h2
    have w2 : wrap64 (95 * (t - parent.timestamp)) = 95 * (t - parent.timestamp) :=
      wrap64_id _ h3 h4
    have w3 : wrap64 (905 * parent.emaBlockTime) = 905 * parent.emaBlockTime :=
      wrap64_id _ h5 h6
    have w4 : wrap64 (95 * (t - parent.timestamp) + 905 * parent.emaBlockTime) =
        95 * (t - parent.timestamp) + 905 * parent.emaBlockTime := wrap64_id _ h7 h8
    have w5 : (parent.difficulty + 1) % 2 ^ 32 = parent.difficulty + 1 := Nat.mod_eq_of_lt h9
    simp only [CalculateNextDifficulty, specNextDifficulty, hh, if_false, w1, w2, w3, w4]
    split_ifs <;> simp_all

/-- C4 counterexample: with parent timestamp -(2 ^ 62) and new timestamp
2 ^ 62 the actual block time 2 ^ 63 overflows int64; the source computes a
negative EMA and raises the difficulty from 5 to 6, while the reference
formula yields a huge positive EMA and lowers it to 4. -/
theorem C4_counterexample :
    CalculateNextDifficulty overflowParent (2 ^ 62) = (6, -9223372036854775) ∧
    specNextDifficulty overflowParent (2 ^ 62) = (4, 876220343501203701) := by
  constructor <;> decide

/-- C4 witness: a calm in-range step, 15 seconds after the parent. -/
theorem C4_witness :
    ((-(2 ^ 63) : Int) ≤ 1704067215 - calmParent.timestamp ∧
      CalculateNextDifficulty calmParent 1704067215 = specNextDifficulty calmParent 1704067215) :=
  ⟨by decide,
   C4_controller_agreement calmParent 1704067215 (by decide) (by decide) (by decide)
     (by decide) (by decide) (by decide) (by decide) (by decide) (by decide)⟩

/-! ## C5: the Merkle root of small blocks -/

/-- C5 (corrected).  For a single-transaction block the level loop of
NewMerkleTree never runs: the root is the lone leaf
Keccak256(tx hash bytes) itself, not the hash of the leaf concatenated
with its duplicate.  The duplicate-last rule fires only at levels holding
more than one node, as the three-transaction shape shows. -/
theorem C5_single_leaf_root :
    (∀ tx : Transaction, NewMerkleTree [tx] = Except.ok (some (leafData tx.Hash))) ∧
    (∀ t1 t2 t3 : Transaction,
      NewMerkleTree [t1, t2, t3] =
        Except.ok (some (nodeData (nodeData (leafData t1.Hash) (leafData t2.Hash))
          (nodeData (leafData t3.Hash) (leafData t3.Hash))))) := by
  constructor
  · intro tx
    simp [NewMerkleTree, merkleLevels]
  · intro t1 t2 t3
    simp [NewMerkleTree, merkleLevels, padOdd, combinePairs]

/-- C5 counterexample: for the concrete genesis coinbase the computed root
is the lone leaf and differs from the claimed duplicate-and-hash value. -/
theorem C5_counterexample :
    NewMerkleTree [genesisCoinbase] = Except.ok (some (leafData genesisCoinbase.Hash)) ∧
    leafData genesisCoinbase.Hash ≠
      nodeData (leafData genesisCoinbase.Hash) (leafData genesisCoinbase.Hash) :=
  ⟨rfl, by decide⟩

/-! ## C6: the header hash ignores cumulative work -/

/-- C6 (confirmed).  Two headers that agree on every field except
CumulativeWork hash identically: the hashing encoding is taken on a copy
whose CumulativeWork is set to nil. -/
theorem C6_hash_ignores_cumulative_work (h₁ h₂ : Header)
    (hv : h₁.version = h₂.version) (hp : h₁.prevHash = h₂.prevHash)
    (hh : h₁.height = h₂.height) (hm : h₁.merkleRoot = h₂.merkleRoot)
    (ht : h₁.timestamp = h₂.timestamp) (hd : h₁.difficulty = h₂.difficulty)
    (hn : h₁.nonce = h₂.nonce) (he : h₁.emaBlockTime = h₂.emaBlockTime) :
    h₁.Hash = h₂.Hash := by
  cases h₁
  cases h₂
  simp_all [Header.Hash, Header.EncodeForHashing, Header.encode]

/-- C6 witness: a header with no cumulative work and the same header
carrying 2 ^ 300 + 17 hash to the same digest. -/
theorem C6_witness :
    cwHeaderA.cumulativeWork ≠ cwHeaderB.cumulativeWork ∧
    cwHeaderA.Hash = cwHeaderB.Hash :=
  ⟨by decide,
   C6_hash_ignores_cumulative_work cwHeaderA cwHeaderB rfl rfl rfl rfl rfl rfl rfl rfl⟩

/-! ## C9: coinbase transactions bypass every check -/

/-- C9 (confirmed).  A transaction with exactly one zero-previous-hash
input is accepted by ValidateTransaction unconditionally, and the
per-transaction loop of ValidateBlock treats any number of such
transactions, at any positions, exactly as if they were absent. -/
theorem C9_coinbase_bypass :
    (∀ (c : Blockchain) (tx : Transaction), tx.IsCoinbase = true →
      ValidateTransaction c tx = (true, none)) ∧
    (∀ (c : Blockchain) (txs : List Transaction),
      validateBlockTxs c txs = validateBlockTxs c (txs.filter (fun tx => !tx.IsCoinbase))) := by
  constructor
  · intro c tx h
    simp [ValidateTransaction, h]
  · intro c txs
    induction txs with
    | nil => rfl
    | cons tx rest ih =>
      by_cases hc : tx.IsCoinbase = true
      · simp [validateBlockTxs, hc, List.filter_cons, ih]
      · have hc' : tx.IsCoinbase = false := by
          revert hc
          cases tx.IsCoinbase <;> simp
        rcases hvt : ValidateTransaction c tx with ⟨valid, err⟩
        cases err with
        | none =>
          cases valid <;> simp [validateBlockTxs, hc', List.filter_cons, hvt, ih]
        | some e =>
          simp [validateBlockTxs, hc', List.filter_cons, hvt]

/-- C9 witness: a coinbase minting 10 ^ 18 with no signature is accepted,
and a block-transaction list of two coinbases is checked exactly like the
empty list. -/
theorem C9_witness :
    hugeCoinbase.IsCoinbase = true ∧
    ValidateTransaction genesisChain hugeCoinbase = (true, none) ∧
    validateBlockTxs genesisChain [hugeCoinbase, genesisCoinbase] =
      validateBlockTxs genesisChain [] := by
  refine ⟨by decide, C9_coinbase_bypass.1 genesisChain hugeCoinbase (by decide), ?_⟩
  have h := C9_coinbase_bypass.2 genesisChain [hugeCoinbase, genesisCoinbase]
  have hf : [hugeCoinbase, genesisCoinbase].filter (fun tx => !tx.IsCoinbase) = [] := by decide
  rw [hf] at h
  exact h

/-! ## C10: an empty transaction list panics validation -/

/-- C10 (confirmed).  NewMerkleTree returns a nil tree with a nil error on
an empty transaction list, and ValidateBlock dereferences that nil tree:
for any block with no transactions that passes the parent and
proof-of-work checks, validation ends in the modelled nil-pointer panic
instead of an error. -/
theorem C10_empty_block_panics :
    NewMerkleTree ([] : List Transaction) = Except.ok none ∧
    ∀ (c : Blockchain) (b : Block) (c₁ : Blockchain),
      b.transactions = [] →
      validateParentChecks c b = (c₁, none) →
      powValidate b = true →
      ValidateBlock c b = (c₁, Res.panicked "nil merkle tree root dereference") := by
  refine ⟨rfl, ?_⟩
  intro c b c₁ htx hpc hpow
  simp [ValidateBlock, hpc, hpow, htx, NewMerkleTree]

/-- C10 witness: a concrete empty block at height 0 and difficulty 0
panics validation on the genesis chain. -/
theorem C10_witness :
    emptyTxBlock.transactions = [] ∧
    validateParentChecks genesisChain emptyTxBlock = (genesisChain, none) ∧
    powValidate emptyTxBlock = true ∧
    ValidateBlock genesisChain emptyTxBlock =
      (genesisChain, Res.panicked "nil merkle tree root dereference") :=
  ⟨rfl, by decide, by decide,
   C10_empty_block_panics.2 genesisChain emptyTxBlock genesisChain rfl (by decide) (by decide)⟩

/-! ## Frame lemmas for validation, and C7, C1, C8 -/

/-- The parent-resolution phase never touches the store or the head, and
changes the header index at most at the parent key. -/
theorem validateParentChecks_frame (c : Blockchain) (b : Block) :
    (validateParentChecks c b).1.store = c.store ∧
    (validateParentChecks c b).1.head = c.head ∧
    ∀ k, k ≠ b.header.prevHash →
      alook (validateParentChecks c b).1.headers k = alook c.headers k := by
  unfold validateParentChecks
  split
  · split
    · exact ⟨rfl, rfl, fun k hk => rfl⟩
    · split
      · exact ⟨rfl, rfl, fun k hk => rfl⟩
      · refine ⟨rfl, rfl, fun k hk => ?_⟩
        simp [alook_ains, hk]
  · split
    · exact ⟨rfl, rfl, fun k hk => rfl⟩
    · exact ⟨rfl, rfl, fun k hk => rfl⟩

/-- Every phase of ValidateBlock after parent resolution returns the
chain state unchanged. -/
theorem ValidateBlock_fst (c : Blockchain) (b : Block) :
    (ValidateBlock c b).1 = (validateParentChecks c b).1 := by
  rcases h : validateParentChecks c b with ⟨c₁, e⟩
  unfold ValidateBlock
  rw [h]
  cases e with
  | some e => rfl
  | none =>
    simp only
    split
    · rfl
    · split
      · rfl
      · rfl
      · split
        · rfl
        · split <;> rfl

/-- C7 (corrected).  ValidateBlock never modifies the persistent store,
the tip marker or the active head, but it is not pure on the in-memory
header index: when the parent header is absent there and found in the
block store, it is adopted into the index.  Away from the parent key the
index is untouched. -/
theorem C7_validate_block_frame (c : Blockchain) (b : Block) :
    (ValidateBlock c b).1.store = c.store ∧
    (ValidateBlock c b).1.head = c.head ∧
    ∀ k, k ≠ b.header.prevHash →
      alook (ValidateBlock c b).1.headers k = alook c.headers k := by
  have hf := ValidateBlock_fst c b
  have hp := validateParentChecks_frame c b
  rw [hf]
  exact hp

/-- C7 counterexample: on the restarted chain (empty header index) a call
to ValidateBlock adopts the genesis header into the index, so the call is
not pure on the chain state. -/
theorem C7_counterexample :
    alook strippedChain.headers genesisChain.head.Hash = none ∧
    alook (ValidateBlock strippedChain b1).1.headers genesisChain.head.Hash =
      some genesisChain.head := by
  constructor
  · rfl
  · decide

/-- C1 (corrected).  When AddBlock rejects a block because ValidateBlock
fails, the store (blocks, UTXOs, undo records, tip marker) and the head
are exactly as before; only the header index may have adopted the parent
header.  (Errors after validation are not covered: the counterexample
shows they leave partial state.) -/
theorem C1_validation_error_frame (c : Blockchain) (b : Block) (c₁ : Blockchain) (e : String)
    (hdup : alook c.headers b.Hash = none)
    (hval : ValidateBlock c b = (c₁, Res.err e)) :
    AddBlock c b = (c₁, Res.err e) ∧
    c₁.store = c.store ∧ c₁.head = c.head ∧
    ∀ k, k ≠ b.header.prevHash → alook c₁.headers k = alook c.headers k := by
  have hadd : AddBlock c b = (c₁, Res.err e) := by
    unfold AddBlock
    simp [hdup, hval]
  have h1 : (ValidateBlock c b).1 = c₁ := by rw [hval]
  have hf := ValidateBlock_fst c b
  have hp := validateParentChecks_frame c b
  have h2 : (validateParentChecks c b).1 = c₁ := hf.symm.trans h1
  rw [h2] at hp
  exact ⟨hadd, hp⟩

/-- C1 counterexample: the double-spend block passes validation (the
existence check is pure), AddBlock then fails while applying it, and the
error return leaves partial state behind: the genesis coinbase UTXO is
deleted and the rejected block sits in the block store. -/
theorem C1_counterexample :
    (AddBlock genesisChain dsBlock).2 = Res.err "could not find UTXO for input" ∧
    genesisChain.store.getUTXO genesisCoinbase.Hash 0 = some { value := 1000, address := 0 } ∧
    (AddBlock genesisChain dsBlock).1.store.getUTXO genesisCoinbase.Hash 0 = none ∧
    ((AddBlock genesisChain dsBlock).1.store.getBlock dsBlock.Hash).isSome = true := by
  refine ⟨?_, ?_, ?_, ?_⟩ <;> decide

/-- C1 witness: a block with a wrong difficulty is rejected and the chain
state is returned unchanged. -/
theorem C1_witness :
    alook genesisChain.headers badDiffBlock.Hash = none ∧
    ValidateBlock genesisChain badDiffBlock = (genesisChain, Res.err "invalid difficulty") ∧
    AddBlock genesisChain badDiffBlock = (genesisChain, Res.err "invalid difficulty") :=
  ⟨by decide, by decide,
   (C1_validation_error_frame genesisChain badDiffBlock genesisChain "invalid difficulty"
     (by decide) (by decide)).1⟩

/-- C8 (corrected).  NewBlockchain treats every error from the tip-marker
read alike: absence and adapter-level storage failures both trigger
creation and persistence of a fresh genesis state; no read error is passed
through to the caller. -/
theorem C8_any_error_creates_genesis (s : Store) (d fuel : Nat) (e : String) (g : Block)
    (hget : s.getHead = Except.error e)
    (hgen : CreateGenesisBlock fuel 0 1000 d = some g) :
    NewBlockchain s d fuel =
      Except.ok
        { store := (((s.putBlock g).putUTXO (genesisCoinbaseTx 0 1000).Hash 0
              { value := 1000, address := 0 }).putUndo g.Hash
              { spentUTXOs := [] }).putHead g.Hash,
          headers := [(g.Hash, g.header)],
          head := g.header } := by
  have hgen' := hgen
  unfold CreateGenesisBlock at hgen
  rcases hpw : powRun fuel (genesisUnmined 0 1000 d) with _ | pr
  · rw [hpw] at hgen
    exact absurd hgen (by simp)
  · obtain ⟨nonce, hsh⟩ := pr
    rw [hpw] at hgen
    simp only at hgen
    injection hgen with hg
    subst hg
    simp only [NewBlockchain, hget, hgen']
    simp [updateUTXOSet, applyTxsInputs, genesisUnmined, genesisCoinbaseTx,
      Transaction.IsCoinbase, putTxsOutputs, putTxOutputs]

/-- C8 counterexample: a store whose tip marker exists but whose read
fails with a storage error.  NewBlockchain succeeds with a fresh genesis
and overwrites the marker; the storage error is not passed through. -/
theorem C8_counterexample :
    failingStore.getHead = Except.error "storage error" ∧
    failingStore.headTip = some 999 ∧
    (NewBlockchain failingStore 0 1).toOption.map
        (fun c => (c.head.height, c.store.headTip)) =
      some (0, some genesisBlock.Hash) := by
  refine ⟨rfl, rfl, ?_⟩
  decide

/-- C8 witness: on the empty store the genesis path runs with the
not-found error. -/
theorem C8_witness :
    emptyStore.getHead = Except.error "not found" ∧
    CreateGenesisBlock 1 0 1000 0 = some genesisBlock ∧
    NewBlockchain emptyStore 0 1 =
      Except.ok
        { store := (((emptyStore.putBlock genesisBlock).putUTXO
              (genesisCoinbaseTx 0 1000).Hash 0
              { value := 1000, address := 0 }).putUndo genesisBlock.Hash
              { spentUTXOs := [] }).putHead genesisBlock.Hash,
          headers := [(genesisBlock.Hash, genesisBlock.header)],
          head := genesisBlock.header } :=
  ⟨rfl, rfl,
   C8_any_error_creates_genesis emptyStore 0 1 "not found" genesisBlock rfl rfl⟩

/-! ## UTXO-namespace characterization lemmas -/

theorem getUTXO_putUTXO (st : Store) (h i h' i' : Nat) (o : TxOutput) :
    (st.putUTXO h i o).getUTXO h' i' =
      if (h', i') = (h, i) then some o else st.getUTXO h' i' := by
  simp [Store.putUTXO, Store.getUTXO, alook_ains]

theorem getUTXO_delUTXO (st : Store) (h i h' i' : Nat) :
    (st.delUTXO h i).getUTXO h' i' =
      if (h', i') = (h, i) then none else st.getUTXO h' i' := by
  simp [Store.delUTXO, Store.getUTXO, alook_adel]

theorem utxoOnly_refl (st : Store) : utxoOnly st st :=
  ⟨rfl, rfl, rfl, rfl⟩

theorem utxoOnly_trans {st1 st2 st3 : Store} (h1 : utxoOnly st1 st2) (h2 : utxoOnly st2 st3) :
    utxoOnly st1 st3 :=
  ⟨h2.1.trans h1.1, h2.2.1.trans h1.2.1, h2.2.2.1.trans h1.2.2.1, h2.2.2.2.trans h1.2.2.2⟩

theorem mem_created_iff (tx : Transaction) (k : Nat × Nat) :
    k ∈ (List.range tx.outputs.length).map (fun i => (tx.Hash, i)) ↔
      k.1 = tx.Hash ∧ k.2 < tx.outputs.length := by
  rcases k with ⟨a, b⟩
  simp only [List.mem_map, List.mem_range]
  constructor
  · rintro ⟨i, hi, he⟩
    injection he with h1 h2
    subst h1
    subst h2
    exact ⟨rfl, hi⟩
  · rintro ⟨h1, h2⟩
    exact ⟨b, h2, by rw [h1]⟩

theorem utxoOnly_putTxOutputs (outs : List TxOutput) (st : Store) (txh i : Nat) :
    utxoOnly st (putTxOutputs st txh i outs) := by
  induction outs generalizing st i with
  | nil => exact utxoOnly_refl st
  | cons o rest ih =>
    exact utxoOnly_trans (⟨rfl, rfl, rfl, rfl⟩ : utxoOnly st (st.putUTXO txh i o)) (ih _ _)

theorem putTxOutputs_lookup (outs : List TxOutput) (st : Store) (txh i : Nat) (k : Nat × Nat)
    (hk : ¬ (k.1 = txh ∧ i ≤ k.2 ∧ k.2 < i + outs.length)) :
    (putTxOutputs st txh i outs).getUTXO k.1 k.2 = st.getUTXO k.1 k.2 := by
  induction outs generalizing st i with
  | nil => rfl
  | cons o rest ih =>
    have hk' : ¬ (k.1 = txh ∧ i + 1 ≤ k.2 ∧ k.2 < i + 1 + rest.length) := by
      rintro ⟨a, b, c⟩
      exact hk ⟨a, by omega, by simp at hk ⊢; omega⟩
    simp only [putTxOutputs]
    rw [ih _ _ hk', getUTXO_putUTXO]
    have hne : ¬ ((k.1, k.2) = (txh, i)) := by
      simp only [Prod.mk.injEq]
      rintro ⟨a, b⟩
      exact hk ⟨a, by omega, by simp; omega⟩
    simp [hne]

theorem utxoOnly_putTxsOutputs (txs : List Transaction) (st : Store) :
    utxoOnly st (putTxsOutputs st txs) := by
  induction txs generalizing st with
  | nil => exact utxoOnly_refl st
  | cons tx rest ih =>
    exact utxoOnly_trans (utxoOnly_putTxOutputs tx.outputs st tx.Hash 0) (ih _)

theorem putTxsOutputs_lookup (txs : List Transaction) (st : Store) (k : Nat × Nat)
    (hk : k ∉ txsCreatedKeys txs) :
    (putTxsOutputs st txs).getUTXO k.1 k.2 = st.getUTXO k.1 k.2 := by
  induction txs generalizing st with
  | nil => rfl
  | cons tx rest ih =>
    simp only [txsCreatedKeys, List.mem_append] at hk
    push_neg at hk
    obtain ⟨h1, h2⟩ := hk
    simp only [putTxsOutputs]
    rw [ih _ h2]
    apply putTxOutputs_lookup
    rintro ⟨a, _, c⟩
    exact h1 ((mem_created_iff tx k).mpr ⟨a, by omega⟩)

theorem utxoOnly_delTxOutputs (outs : List TxOutput) (st : Store) (txh i : Nat) :
    utxoOnly st (delTxOutputs st txh i outs) := by
  induction outs generalizing st i with
  | nil => exact utxoOnly_refl st
  | cons o rest ih =>
    exact utxoOnly_trans (⟨rfl, rfl, rfl, rfl⟩ : utxoOnly st (st.delUTXO txh i)) (ih _ _)

theorem delTxOutputs_lookup (outs : List TxOutput) (st : Store) (txh i : Nat) (k : Nat × Nat) :
    (delTxOutputs st txh i outs).getUTXO k.1 k.2 =
      if k.1 = txh ∧ i ≤ k.2 ∧ k.2 < i + outs.length then none else st.getUTXO k.1 k.2 := by
  induction outs generalizing st i with
  | nil =>
    simp only [delTxOutputs, List.length_nil]
    exact (if_neg (by omega)).symm
  | cons o rest ih =>
    simp only [delTxOutputs]
    rw [ih]
    by_cases hin : k.1 = txh ∧ i + 1 ≤ k.2 ∧ k.2 < i + 1 + rest.length
    · have hall : k.1 = txh ∧ i ≤ k.2 ∧ k.2 < i + (o :: rest).length := by
        simp only [List.length_cons]
        exact ⟨hin.1, by omega, by omega⟩
      rw [if_pos hin, if_pos hall]
    · rw [if_neg hin, getUTXO_delUTXO]
      by_cases hkey : (k.1, k.2) = (txh, i)
      · have ha : k.1 = txh := congrArg Prod.fst hkey
        have hb : k.2 = i := congrArg Prod.snd hkey
        have hall : k.1 = txh ∧ i ≤ k.2 ∧ k.2 < i + (o :: rest).length := by
          simp only [List.length_cons]
          exact ⟨ha, by omega, by omega⟩
        rw [if_pos hkey, if_pos hall]
      · have hne2 : ¬ (k.1 = txh ∧ i ≤ k.2 ∧ k.2 < i + (o :: rest).length) := by
          rintro ⟨a, b, c⟩
          rcases Nat.eq_or_lt_of_le b with hb | hb
          · exact hkey (by simp [a, hb.symm])
          · simp only [List.length_cons] at c
            exact hin ⟨a, by omega, by omega⟩
        rw [if_neg hkey, if_neg hne2]

theorem utxoOnly_delTxsOutputs (txs : List Transaction) (st : Store) :
    utxoOnly st (delTxsOutputs st txs) := by
  induction txs generalizing st with
  | nil => exact utxoOnly_refl st
  | cons tx rest ih =>
    exact utxoOnly_trans (utxoOnly_delTxOutputs tx.outputs st tx.Hash 0) (ih _)

theorem delTxsOutputs_lookup (txs : List Transaction) (st : Store) (k : Nat × Nat) :
    (delTxsOutputs st txs).getUTXO k.1 k.2 =
      if k ∈ txsCreatedKeys txs then none else st.getUTXO k.1 k.2 := by
  induction txs generalizing st with
  | nil => simp [delTxsOutputs, txsCreatedKeys]
  | cons tx rest ih =>
    simp only [delTxsOutputs]
    rw [ih]
    by_cases hr : k ∈ txsCreatedKeys rest
    · simp [txsCreatedKeys, hr]
    · rw [if_neg hr, delTxOutputs_lookup]
      by_cases hc : k ∈ (List.range tx.outputs.length).map (fun i => (tx.Hash, i))
      · have hci := (mem_created_iff tx k).mp hc
        have hmem : k ∈ txsCreatedKeys (tx :: rest) := by
          simp [txsCreatedKeys, hc]
        rw [if_pos ⟨hci.1, Nat.zero_le _, by omega⟩, if_pos hmem]
      · have hmem : k ∉ txsCreatedKeys (tx :: rest) := by
          simp [txsCreatedKeys, hc, hr]
        have hnc : ¬ (k.1 = tx.Hash ∧ 0 ≤ k.2 ∧ k.2 < 0 + tx.outputs.length) := by
          rintro ⟨a, _, c⟩
          exact hc ((mem_created_iff tx k).mpr ⟨a, by omega⟩)
        rw [if_neg hnc, if_neg hmem]

theorem utxoOnly_restoreSpent (undo : List SpentUTXO) (st : Store) :
    utxoOnly st (restoreSpent st undo) := by
  induction undo generalizing st with
  | nil => exact utxoOnly_refl st
  | cons e rest ih =>
    exact utxoOnly_trans (⟨rfl, rfl, rfl, rfl⟩ :
      utxoOnly st (st.putUTXO e.txHash e.index e.output)) (ih _)

theorem restoreSpent_lookup (undo : List SpentUTXO) (st : Store)
    (hnd : (undo.map (fun e => (e.txHash, e.index))).Nodup) (k : Nat × Nat) :
    (restoreSpent st undo).getUTXO k.1 k.2 =
      match undo.find? (fun e => e.txHash == k.1 && e.index == k.2) with
      | some e => some e.output
      | none => st.getUTXO k.1 k.2 := by
  induction undo generalizing st with
  | nil => rfl
  | cons e rest ih =>
    simp only [List.map_cons, List.nodup_cons] at hnd
    obtain ⟨hnotin, hnd'⟩ := hnd
    simp only [restoreSpent]
    rw [ih _ hnd']
    by_cases hke : e.txHash = k.1 ∧ e.index = k.2
    · have hfind : List.find? (fun e => e.txHash == k.1 && e.index == k.2) (e :: rest) = some e := by
        simp [List.find?, hke.1, hke.2]
      have hnone : List.find? (fun x => x.txHash == k.1 && x.index == k.2) rest = none := by
        rw [List.find?_eq_none]
        rintro x hx hpx
        simp only [Bool.and_eq_true, beq_iff_eq] at hpx
        apply hnotin
        rw [← hke.1, ← hke.2] at hpx
        have : (x.txHash, x.index) = (e.txHash, e.index) := by
          simp [hpx.1, hpx.2]
        rw [← this]
        exact List.mem_map_of_mem _ hx
      rw [hfind, hnone, getUTXO_putUTXO]
      simp [hke.1, hke.2]
    · have hfind : List.find? (fun x => x.txHash == k.1 && x.index == k.2) (e :: rest) =
          List.find? (fun x => x.txHash == k.1 && x.index == k.2) rest := by
        rw [List.find?_cons]
        have : (e.txHash == k.1 && e.index == k.2) = false := by
          rcases Decidable.not_and_iff_or_not.mp hke with h | h <;> simp [h]
        rw [this]
      rw [hfind]
      rcases hf : List.find? (fun x => x.txHash == k.1 && x.index == k.2) rest with _ | x
      · rw [hf, getUTXO_putUTXO]
        have hne : ¬ ((k.1, k.2) = (e.txHash, e.index)) := by
          rintro hkk
          exact hke ⟨(congrArg Prod.fst hkk).symm, (congrArg Prod.snd hkk).symm⟩
        simp [hne]
      · rw [hf]

/-! ## The input phase as an ApplySpec -/

theorem ApplySpec_trans {st1 st2 st3 : Store} {u1 u2 : List SpentUTXO}
    {k1 k2 : List (Nat × Nat)}
    (h1 : ApplySpec st1 st2 u1 k1) (h2 : ApplySpec st2 st3 u2 k2) :
    ApplySpec st1 st3 (u1 ++ u2) (k1 ++ k2) := by
  obtain ⟨hm1, hn1, ho1, hl1, hf1⟩ := h1
  obtain ⟨hm2, hn2, ho2, hl2, hf2⟩ := h2
  refine ⟨by simp [hm1, hm2], ?_, ?_, ?_, utxoOnly_trans hf1 hf2⟩
  · rw [List.nodup_append]
    refine ⟨hn1, hn2, ?_⟩
    intro a ha1 ha2
    rw [← hm2] at ha2
    obtain ⟨e, he, hkey⟩ := List.mem_map.mp ha2
    subst hkey
    have hsome := ho2 e he
    have hchar : st2.getUTXO e.txHash e.index =
        if ((e.txHash, e.index) : Nat × Nat) ∈ k1 then none
        else st1.getUTXO e.txHash e.index := hl1 (e.txHash, e.index)
    rw [if_pos ha1] at hchar
    rw [hchar] at hsome
    cases hsome
  · intro e he
    rcases List.mem_append.mp he with h | h
    · exact ho1 e h
    · have h2e := ho2 e h
      have hchar : st2.getUTXO e.txHash e.index =
          if ((e.txHash, e.index) : Nat × Nat) ∈ k1 then none
          else st1.getUTXO e.txHash e.index := hl1 (e.txHash, e.index)
      by_cases hk : ((e.txHash, e.index) : Nat × Nat) ∈ k1
      · rw [if_pos hk] at hchar
        rw [hchar] at h2e
        cases h2e
      · rw [if_neg hk] at hchar
        rw [hchar] at h2e
        exact h2e
  · intro k
    rw [hl2 k]
    by_cases hk2 : k ∈ k2
    · have : k ∈ k1 ++ k2 := List.mem_append.mpr (Or.inr hk2)
      rw [if_pos hk2, if_pos this]
    · rw [if_neg hk2, hl1 k]
      by_cases hk1 : k ∈ k1
      · have : k ∈ k1 ++ k2 := List.mem_append.mpr (Or.inl hk1)
        rw [if_pos hk1, if_pos this]
      · have : k ∉ k1 ++ k2 := by
          rw [List.mem_append]
          rintro (h | h)
          · exact hk1 h
          · exact hk2 h
        rw [if_neg hk1, if_neg this]

theorem ApplySpec_del (st : Store) (txh idx : Nat) (out : TxOutput)
    (hg : st.getUTXO txh idx = some out) :
    ApplySpec st (st.delUTXO txh idx)
      [{ txHash := txh, index := idx, output := out }] [(txh, idx)] := by
  refine ⟨by simp, by simp, ?_, ?_, ⟨rfl, rfl, rfl, rfl⟩⟩
  · intro e he
    rw [List.mem_singleton] at he
    subst he
    exact hg
  · rintro ⟨a, b⟩
    rw [getUTXO_delUTXO]
    by_cases hk : ((a, b) : Nat × Nat) = (txh, idx) <;> simp [hk]

theorem applyTxInputs_spec (inputs : List TxInput) (st st' : Store)
    (undo undo' : List SpentUTXO)
    (h : applyTxInputs st undo inputs = (st', undo', none)) :
    ∃ newE, undo' = undo ++ newE ∧
      ApplySpec st st' newE (inputs.map (fun i => (i.prevTxHash, i.prevOutIndex))) := by
  induction inputs generalizing st undo with
  | nil =>
    simp only [applyTxInputs] at h
    injection h with ha hb
    injection hb with hb1 hb2
    subst ha
    subst hb1
    refine ⟨[], by simp, by simp, by simp, by simp, ?_, utxoOnly_refl st⟩
    intro k
    simp
  | cons i rest ih =>
    simp only [applyTxInputs] at h
    rcases hg : st.getUTXO i.prevTxHash i.prevOutIndex with _ | out
    · rw [hg] at h
      exact absurd h (by simp)
    · rw [hg] at h
      obtain ⟨newE, hundo, hspec⟩ := ih _ _ h
      refine ⟨{ txHash := i.prevTxHash, index := i.prevOutIndex, output := out } :: newE,
        by simp [hundo], ?_⟩
      have := ApplySpec_trans (ApplySpec_del st i.prevTxHash i.prevOutIndex out hg) hspec
      simpa using this

theorem applyTxsInputs_spec (txs : List Transaction) (st st' : Store)
    (undo undo' : List SpentUTXO)
    (h : applyTxsInputs st undo txs = (st', undo', none)) :
    ∃ newE, undo' = undo ++ newE ∧ ApplySpec st st' newE (txsSpentKeys txs) := by
  induction txs generalizing st undo with
  | nil =>
    simp only [applyTxsInputs] at h
    injection h with ha hb
    injection hb with hb1 hb2
    subst ha
    subst hb1
    refine ⟨[], by simp, by simp [txsSpentKeys], by simp [txsSpentKeys], by simp, ?_,
      utxoOnly_refl st⟩
    intro k
    simp [txsSpentKeys]
  | cons tx rest ih =>
    simp only [applyTxsInputs] at h
    by_cases hc : tx.IsCoinbase = true
    · rw [if_pos (by simp [hc])] at h
      obtain ⟨newE, h1, h2⟩ := ih _ _ h
      refine ⟨newE, h1, ?_⟩
      simpa [txsSpentKeys, hc] using h2
    · rw [if_neg (by simp [hc])] at h
      rcases ha : applyTxInputs st undo tx.inputs with ⟨st1, undo1, err1⟩
      rw [ha] at h
      cases err1 with
      | some e => exact absurd h (by simp)
      | none =>
        obtain ⟨e1, hu1, hs1⟩ := applyTxInputs_spec tx.inputs st st1 undo undo1 ha
        obtain ⟨e2, hu2, hs2⟩ := ih st1 undo1 h
        refine ⟨e1 ++ e2, by rw [hu2, hu1, List.append_assoc], ?_⟩
        have := ApplySpec_trans hs1 hs2
        have hb : tx.IsCoinbase = false := by
          revert hc
          cases tx.IsCoinbase <;> simp
        simpa [txsSpentKeys, hb] using this

/-! ## C2: apply then rollback -/

/-- C2 (corrected).  For a block whose application succeeds AND whose
created-but-not-spent output keys are absent from the UTXO set beforehand,
rolling the block back succeeds and restores every UTXO lookup to its
pre-apply value, and the undo record is deleted.  The freshness
precondition is necessary: the source overwrites an existing entry when a
transaction hash repeats, and rollback then deletes it (see the
counterexample). -/
theorem C2_apply_rollback_roundtrip (st : Store) (b : Block) (st' : Store)
    (happly : updateUTXOSet st b = (st', none))
    (hfresh : ∀ k ∈ blockCreatedKeys b, k ∉ blockSpentKeys b → st.getUTXO k.1 k.2 = none) :
    (rollbackUTXOSet st' b).2 = none ∧
    (∀ k : Nat × Nat, (rollbackUTXOSet st' b).1.getUTXO k.1 k.2 = st.getUTXO k.1 k.2) ∧
    (rollbackUTXOSet st' b).1.getUndo b.Hash = none := by
  unfold updateUTXOSet at happly
  rcases ha : applyTxsInputs st [] b.transactions with ⟨st1, undo, err⟩
  rw [ha] at happly
  cases err with
  | some e => exact absurd happly (by simp)
  | none =>
    have hst' : st' = (putTxsOutputs st1 b.transactions).putUndo b.Hash { spentUTXOs := undo } := by
      have := congrArg Prod.fst happly
      simpa using this.symm
    obtain ⟨newE0, hundo, hspec⟩ := applyTxsInputs_spec b.transactions st st1 [] undo ha
    simp only [List.nil_append] at hundo
    subst hundo
    obtain ⟨hmap, hnd, hout, hlook1, hframe1⟩ := hspec
    have hndE : (undo.map (fun e => (e.txHash, e.index))).Nodup := by
      rw [hmap]
      exact hnd
    have hgetundo : st'.getUndo b.Hash = some { spentUTXOs := undo } := by
      rw [hst']
      simp [Store.putUndo, Store.getUndo, alook_ains]
    have hrb : rollbackUTXOSet st' b =
        ((restoreSpent (delTxsOutputs st' b.transactions) undo).delUndo b.Hash, none) := by
      unfold rollbackUTXOSet
      rw [hgetundo]
    rw [hrb]
    refine ⟨rfl, ?_, ?_⟩
    · intro k
      have hdu : ((restoreSpent (delTxsOutputs st' b.transactions) undo).delUndo
          b.Hash).getUTXO k.1 k.2 =
          (restoreSpent (delTxsOutputs st' b.transactions) undo).getUTXO k.1 k.2 := rfl
      rw [hdu, restoreSpent_lookup _ _ hndE k]
      rcases hf : undo.find? (fun e => e.txHash == k.1 && e.index == k.2) with _ | e
      all_goals rw [hf]
      · have hknotin : k ∉ txsSpentKeys b.transactions := by
          intro hk
          rw [← hmap] at hk
          obtain ⟨e, he, hkey⟩ := List.mem_map.mp hk
          have hpred := List.find?_eq_none.mp hf e he
          apply hpred
          have h1 : e.txHash = k.1 := congrArg Prod.fst hkey
          have h2 : e.index = k.2 := congrArg Prod.snd hkey
          simp [h1, h2]
        rw [delTxsOutputs_lookup]
        by_cases hcr : k ∈ txsCreatedKeys b.transactions
        · rw [if_pos hcr]
          exact (hfresh k hcr hknotin).symm
        · rw [if_neg hcr, hst']
          have hpu : ((putTxsOutputs st1 b.transactions).putUndo b.Hash
              { spentUTXOs := undo }).getUTXO k.1 k.2 =
              (putTxsOutputs st1 b.transactions).getUTXO k.1 k.2 := rfl
          rw [hpu, putTxsOutputs_lookup _ _ _ hcr, hlook1 k, if_neg hknotin]
      · have hee : e ∈ undo := List.mem_of_find?_eq_some hf
        have hpk := List.find?_some hf
        simp only [Bool.and_eq_true, beq_iff_eq] at hpk
        have hsome := hout e hee
        rw [hpk.1, hpk.2] at hsome
        exact hsome.symm
    · simp [Store.delUndo, Store.getUndo, alook_adel]

/-- C2 counterexample: a block repeating the genesis coinbase is accepted
by validation and applies successfully, but apply-then-rollback deletes
the pre-existing genesis coinbase UTXO instead of restoring the original
state. -/
theorem C2_counterexample :
    (ValidateBlock genesisChain dupCbBlock).2 = Res.ok ∧
    (updateUTXOSet genesisChain.store dupCbBlock).2 = none ∧
    (rollbackUTXOSet (updateUTXOSet genesisChain.store dupCbBlock).1 dupCbBlock).2 = none ∧
    genesisChain.store.getUTXO genesisCoinbase.Hash 0 = some { value := 1000, address := 0 } ∧
    (rollbackUTXOSet (updateUTXOSet genesisChain.store dupCbBlock).1 dupCbBlock).1.getUTXO
      genesisCoinbase.Hash 0 = none := by
  refine ⟨?_, ?_, ?_, ?_, ?_⟩ <;> decide

/-- C2 witness: a block spending the genesis coinbase into a fresh output
round-trips exactly. -/
theorem C2_witness :
    updateUTXOSet genesisChain.store spendBlock =
      ((updateUTXOSet genesisChain.store spendBlock).1, none) ∧
    (rollbackUTXOSet (updateUTXOSet genesisChain.store spendBlock).1 spendBlock).2 = none ∧
    (∀ k : Nat × Nat,
      (rollbackUTXOSet (updateUTXOSet genesisChain.store spendBlock).1 spendBlock).1.getUTXO
          k.1 k.2 =
        genesisChain.store.getUTXO k.1 k.2) ∧
    (rollbackUTXOSet (updateUTXOSet genesisChain.store spendBlock).1 spendBlock).1.getUndo
      spendBlock.Hash = none := by
  have h := C2_apply_rollback_roundtrip genesisChain.store spendBlock
    (updateUTXOSet genesisChain.store spendBlock).1 (by decide) (by decide)
  exact ⟨by decide, h.1, h.2.1, h.2.2⟩

/-! ## C3: tip maximality -/

/-- A successful reorganization moves the head to the new block and leaves
the header index untouched. -/
theorem reorganizeChain_ok (c : Blockchain) (nb : Block) (c' : Blockchain)
    (h : reorganizeChain c nb = (c', Res.ok)) :
    c'.headers = c.headers ∧ c'.head = nb.header := by
  simp only [reorganizeChain] at h
  split at h
  · exact absurd (congrArg Prod.snd h) (by simp)
  · split at h
    · exact absurd (congrArg Prod.snd h) (by simp)
    · split at h
      · exact absurd (congrArg Prod.snd h) (by simp)
      · split at h
        · exact absurd (congrArg Prod.snd h) (by simp)
        · split at h
          · exact absurd (congrArg Prod.snd h) (by simp)
          · have hc := congrArg Prod.fst h
            exact ⟨congrArg Blockchain.headers hc.symm ▸ rfl,
              congrArg Blockchain.head hc.symm ▸ rfl⟩

/-- The parent-resolution phase either leaves the header index unchanged
or adopts exactly the parent header found in the block store. -/
theorem validateParentChecks_headers (c : Blockchain) (b : Block) :
    (validateParentChecks c b).1.headers = c.headers ∨
    ∃ pb, alook c.headers b.header.prevHash = none ∧
      c.store.getBlock b.header.prevHash = some pb ∧
      (validateParentChecks c b).1.headers = ains c.headers b.header.prevHash pb.header := by
  unfold validateParentChecks
  split
  · split
    · left
      rfl
    · split
      · left
        rfl
      · next hl _ pb hpb =>
        right
        exact ⟨pb, hl, hpb, rfl⟩
  · split
    · left
      rfl
    · left
      rfl

/-- C3 (confirmed).  First part: on any reachable-shaped state (every
indexed header weighs at most the head, the index entry at the head hash
is the head itself or absent, and the stored block at the head hash
carries the head header), a successful AddBlock preserves tip maximality:
every header in the index weighs at most the new head.  Second part: a
fork block whose computed cumulative work does not exceed the current
head's (a tie included) leaves the head, the UTXO namespace, the undo
namespace and the tip marker untouched and still returns success. -/
theorem C3_tip_maximality :
    (∀ (c : Blockchain) (b : Block) (c' : Blockchain),
      (∀ p ∈ c.headers, headerWork p.2 ≤ headerWork c.head) →
      (alook c.headers c.head.Hash = some c.head ∨ alook c.headers c.head.Hash = none) →
      (∀ blk, c.store.getBlock c.head.Hash = some blk → blk.header = c.head) →
      AddBlock c b = (c', Res.ok) →
      ∀ p ∈ c'.headers, headerWork p.2 ≤ headerWork c'.head) ∧
    (∀ (c : Blockchain) (b : Block) (c₁ : Blockchain) (P : Header) (pw hw : Nat),
      alook c.headers b.Hash = none →
      ValidateBlock c b = (c₁, Res.ok) →
      alook c₁.headers b.header.prevHash = some P →
      P.cumulativeWork = some pw →
      b.header.prevHash ≠ c.head.Hash →
      c.head.cumulativeWork = some hw →
      pw + powWork b ≤ hw →
      (AddBlock c b).2 = Res.ok ∧
      (AddBlock c b).1.head = c.head ∧
      (AddBlock c b).1.store.utxos = c.store.utxos ∧
      (AddBlock c b).1.store.undos = c.store.undos ∧
      (AddBlock c b).1.store.headTip = c.store.headTip) := by
  constructor
  · intro c b c' hinv htip hblk hadd
    by_cases hdup : (alook c.headers b.Hash).isSome = true
    · simp only [AddBlock, hdup, if_true] at hadd
      have hc := congrArg Prod.fst hadd
      simp only at hc
      subst hc
      exact hinv
    · rcases hv : ValidateBlock c b with ⟨c₁, res⟩
      simp only [AddBlock, hdup, Bool.false_eq_true, if_false, hv] at hadd
      have hvpc1 : (validateParentChecks c b).1 = c₁ :=
        (ValidateBlock_fst c b).symm.trans (by rw [hv])
      have hpcf := validateParentChecks_frame c b
      rw [hvpc1] at hpcf
      have hstore : c₁.store = c.store := hpcf.1
      have hhead : c₁.head = c.head := hpcf.2.1
      cases res with
      | err e => exact absurd (congrArg Prod.snd hadd) (by simp)
      | panicked m => exact absurd (congrArg Prod.snd hadd) (by simp)
      | ok =>
        simp only at hadd
        rcases hp : alook c₁.headers b.header.prevHash with _ | P
        · simp only [hp] at hadd
          exact absurd (congrArg Prod.snd hadd) (by simp)
        · simp only [hp] at hadd
          rcases hpw : P.cumulativeWork with _ | pw
          · simp only [hpw] at hadd
            exact absurd (congrArg Prod.snd hadd) (by simp)
          · simp only [hpw] at hadd
            have hmem₁ : ∀ p ∈ c₁.headers, p ∈ c.headers ∨ p = (b.header.prevHash, P) := by
              rcases validateParentChecks_headers c b with hsame | ⟨pb, hnone, hgb, hains⟩
              · rw [hvpc1] at hsame
                rw [hsame]
                exact fun p hp' => Or.inl hp'
              · rw [hvpc1] at hains
                have hPpb : P = pb.header := by
                  rw [hains] at hp
                  rw [alook_ains, if_pos rfl] at hp
                  exact (Option.some.injEq _ _).mp hp |>.symm
                intro p hp'
                rw [hains] at hp'
                rcases List.mem_cons.mp hp' with h | h
                · right
                  rw [h, hPpb]
                · left
                  exact h
            by_cases hext : b.header.prevHash = c₁.head.Hash
            · -- straight extension of the tip
              have hPc : P = c.head := by
                rcases validateParentChecks_headers c b with hsame | ⟨pb, hnone, hgb, hains⟩
                · rw [hvpc1] at hsame
                  rw [hsame] at hp
                  rw [hext, hhead] at hp
                  rcases htip with ht | ht
                  · rw [ht] at hp
                    exact ((Option.some.injEq _ _).mp hp).symm
                  · rw [ht] at hp
                    cases hp
                · rw [hvpc1] at hains
                  have hPpb : P = pb.header := by
                    rw [hains] at hp
                    rw [alook_ains, if_pos rfl] at hp
                    exact ((Option.some.injEq _ _).mp hp).symm
                  rw [hext, hhead] at hgb
                  rw [hPpb]
                  exact hblk pb hgb
              rw [if_pos hext] at hadd
              rcases hu : updateUTXOSet ((c₁.store.putBlock
                  { b with header := { b.header with
                      cumulativeWork := some (pw + powWork b) } }))
                  { b with header := { b.header with
                      cumulativeWork := some (pw + powWork b) } } with ⟨st3, oerr⟩
              simp only [hu] at hadd
              cases oerr with
              | some e => exact absurd (congrArg Prod.snd hadd) (by simp)
              | none =>
                simp only at hadd
                have hc := congrArg Prod.fst hadd
                simp only at hc
                rw [← hc]
                intro p hpmem
                simp only [ains] at hpmem
                rcases List.mem_cons.mp hpmem with h | h
                · rw [h]
                · rcases hmem₁ p h with h2 | h2
                  · have := hinv p h2
                    have hcw : headerWork c.head = pw := by
                      rw [← hPc, headerWork, hpw]
                      rfl
                    rw [hcw] at this
                    simp only [headerWork]
                    calc headerWork p.2 ≤ pw := this
                      _ ≤ pw + powWork b := Nat.le_add_right _ _
                  · rw [h2]
                    simp only [headerWork, hpw, Option.getD_some]
                    exact Nat.le_add_right _ _
            · -- a fork block
              rw [if_neg hext] at hadd
              rcases hcw : c₁.head.cumulativeWork with _ | hw
              · simp only [hcw] at hadd
                exact absurd (congrArg Prod.snd hadd) (by simp)
              · simp only [hcw] at hadd
                have hwork : headerWork c.head = hw := by
                  rw [← hhead, headerWork, hcw]
                  rfl
                by_cases hlt : hw < pw + powWork b
                · -- heavier fork: reorganization
                  rw [if_pos hlt] at hadd
                  obtain ⟨hh, hhd⟩ := reorganizeChain_ok _ _ _ hadd
                  intro p hpmem
                  rw [hh] at hpmem
                  simp only [ains] at hpmem
                  rw [hhd]
                  simp only [headerWork, Option.getD_some]
                  rcases List.mem_cons.mp hpmem with h | h
                  · rw [h]
                    simp
                  · rcases hmem₁ p h with h2 | h2
                    · have := hinv p h2
                      rw [hwork] at this
                      simp only [headerWork] at this
                      omega
                    · rw [h2]
                      simp only [hpw]
                      simp only [Option.getD_some]
                      omega
                · -- lighter or tying fork: kept aside
                  rw [if_neg hlt] at hadd
                  have hc := congrArg Prod.fst hadd
                  simp only at hc
                  rw [← hc]
                  intro p hpmem
                  simp only [ains] at hpmem
                  have hwhd : headerWork c₁.head = hw := by
                    rw [headerWork, hcw]
                    rfl
                  rw [hwhd]
                  rcases List.mem_cons.mp hpmem with h | h
                  · rw [h]
                    simp only [headerWork, Option.getD_some]
                    omega
                  · rcases hmem₁ p h with h2 | h2
                    · have := hinv p h2
                      rw [hwork] at this
                      exact this
                    · rw [h2]
                      simp only [headerWork, hpw, Option.getD_some]
                      omega
  · intro c b c₁ P pw hw hdup hv hp hpw hne hhw hle
    have hvpc1 : (validateParentChecks c b).1 = c₁ :=
      (ValidateBlock_fst c b).symm.trans (by rw [hv])
    have hpcf := validateParentChecks_frame c b
    rw [hvpc1] at hpcf
    have hstore : c₁.store = c.store := hpcf.1
    have hhead : c₁.head = c.head := hpcf.2.1
    have hdup' : (alook c.headers b.Hash).isSome = true ↔ False := by
      rw [hdup]
      simp
    have hext : ¬ b.header.prevHash = c₁.head.Hash := by
      rw [hhead]
      exact hne
    have hlt : ¬ hw < pw + powWork b := Nat.not_lt.mpr hle
    have haddeq : AddBlock c b =
        ({ c₁ with
            store := c₁.store.putBlock
              { b with header := { b.header with cumulativeWork := some (pw + powWork b) } },
            headers := ains c₁.headers b.Hash
              { b.header with cumulativeWork := some (pw + powWork b) } }, Res.ok) := by
      simp only [AddBlock, hdup, Option.isSome_none, Bool.false_eq_true, if_false, hv, hp, hpw]
      simp only [hext, if_false]
      rw [hhead, hhw]
      simp only [hlt, if_false]
    rw [haddeq]
    refine ⟨rfl, hhead, ?_, ?_, ?_⟩
    · simp [Store.putBlock, hstore]
    · simp [Store.putBlock, hstore]
    · simp [Store.putBlock, hstore]

/-- C3 witness: accepting b1 onto the genesis chain preserves tip
maximality, and the tying fork block b1f (equal cumulative work 0) leaves
head, UTXO namespace, undo namespace and tip marker untouched. -/
theorem C3_witness :
    (∀ p ∈ chain2.headers, headerWork p.2 ≤ headerWork chain2.head) ∧
    ((AddBlock chain2 b1f).2 = Res.ok ∧
     (AddBlock chain2 b1f).1.head = chain2.head ∧
     (AddBlock chain2 b1f).1.store.utxos = chain2.store.utxos ∧
     (AddBlock chain2 b1f).1.store.undos = chain2.store.undos ∧
     (AddBlock chain2 b1f).1.store.headTip = chain2.store.headTip) := by
  constructor
  · exact C3_tip_maximality.1 genesisChain b1 chain2 (by decide) (by decide)
      (by intro blk hbk
          injection hbk with h3
          rw [← h3]
          decide)
      (by decide)
  · exact C3_tip_maximality.2 chain2 b1f chain2 genesisChain.head 0 0 (by decide) (by decide)
      (by decide) (by decide) (by decide) (by decide) (by decide)

/-- C7 witness: the frame property instantiated on the genesis chain and
b1, with an arbitrary key away from the parent key. -/
theorem C7_witness :
    (ValidateBlock genesisChain b1).1.store = genesisChain.store ∧
    (ValidateBlock genesisChain b1).1.head = genesisChain.head ∧
    alook (ValidateBlock genesisChain b1).1.headers 12345 = alook genesisChain.headers 12345 :=
  ⟨(C7_validate_block_frame genesisChain b1).1,
   (C7_validate_block_frame genesisChain b1).2.1,
   (C7_validate_block_frame genesisChain b1).2.2 12345 (by decide)⟩
